import Mathlib

/-!
Verification of the Gomoku board engine (`board.py`) and search engine
(`ai.py`) against their specification.  The Python classes are shallowly
embedded: the mutable `numpy` grid becomes a `List (List Nat)` threaded
explicitly through every operation that mutates it, coordinates are `Int`
(Python ints), and cell values are `Nat` (0 = empty, 1 = black, 2 = white).
-/

/-- Embedding of `board.py`'s `Board`: `size`, the `size × size` grid
(indexed `board[y][x]` as in the source), and `win_length` (set to 5 by the
constructor and never changed). -/
structure Board where
  size : Nat
  win_length : Nat
  board : List (List Nat)
deriving Repr, DecidableEq

/-- `Board.__init__`: an all-empty `size × size` grid with `win_length = 5`. -/
def Board.init (size : Nat) : Board :=
  { size := size, win_length := 5
    board := List.replicate size (List.replicate size 0) }

/-- Grid read `self.board[y][x]`.  Every read in the embedded code paths is
guarded by `0 ≤ x, y`, so the `Int.toNat` conversion is faithful there. -/
def Board.cell (b : Board) (x y : Int) : Nat :=
  (b.board.getD y.toNat []).getD x.toNat 0

/-- Grid write `self.board[y][x] = v`. -/
def Board.setCell (b : Board) (x y : Int) (v : Nat) : Board :=
  { b with board := b.board.set y.toNat ((b.board.getD y.toNat []).set x.toNat v) }

/-- The single-cell reset `board.board[y][x] = 0` that the search engine
performs to retract a speculative stone (ai.py lines 62/64/69/71/117/155/171). -/
def Board.clear_cell (b : Board) (x y : Int) : Board :=
  b.setCell x y 0

/-- `Board.is_valid_move`: in range and empty. -/
def Board.is_valid_move (b : Board) (x y : Int) : Bool :=
  if x < 0 ∨ (b.size : Int) ≤ x ∨ y < 0 ∨ (b.size : Int) ≤ y then false
  else b.cell x y == 0

/-- `Board.place_stone`: mutation is returned as the second component. -/
def Board.place_stone (b : Board) (x y : Int) (player : Nat) : Bool × Board :=
  if b.is_valid_move x y then (true, b.setCell x y player) else (false, b)

/-- The `while` loop of `Board.count_direction`, with explicit fuel.  The loop
steps by `(dx, dy)` while the position stays in range and matches `player`;
for the unit directions of `check_win` it runs at most `size` times, so fuel
`size + 1` (supplied by `Board.count_direction`) never runs out. -/
def Board.countLoop (b : Board) (player : Nat) (dx dy : Int) :
    Nat → Int → Int → Nat
  | 0, _, _ => 0
  | fuel + 1, nx, ny =>
    if 0 ≤ nx ∧ nx < (b.size : Int) ∧ 0 ≤ ny ∧ ny < (b.size : Int) ∧
        b.cell nx ny = player then
      1 + b.countLoop player dx dy fuel (nx + dx) (ny + dy)
    else 0

/-- `Board.count_direction`: contiguous same-player stones strictly beyond
`(x, y)` in direction `(dx, dy)`. -/
def Board.count_direction (b : Board) (x y dx dy : Int) (player : Nat) : Nat :=
  b.countLoop player dx dy (b.size + 1) (x + dx) (y + dy)

/-- The four direction axes checked by `Board.check_win`. -/
def winDirections : List (Int × Int) := [(1, 0), (0, 1), (1, 1), (1, -1)]

/-- `Board.check_win`: some axis through `(x, y)` carries a contiguous run of
length `≥ win_length`, the run counted in both directions plus the cell itself. -/
def Board.check_win (b : Board) (x y : Int) (player : Nat) : Bool :=
  winDirections.any fun d =>
    b.win_length ≤
      1 + b.count_direction x y d.1 d.2 player +
        b.count_direction x y (-d.1) (-d.2) player

/-- `Board.get_valid_moves`: row-major enumeration (outer loop on `y`,
inner loop on `x`) of the empty in-range cells. -/
def Board.get_valid_moves (b : Board) : List (Int × Int) :=
  (List.range b.size).flatMap fun (y : Nat) =>
    (List.range b.size).filterMap fun (x : Nat) =>
      if b.is_valid_move (x : Int) (y : Int) then
        some ((x : Int), (y : Int))
      else none

/-- `Board.is_full`: `np.all(self.board != 0)`. -/
def Board.is_full (b : Board) : Bool :=
  b.board.all fun row => row.all fun c => c != 0

/-- Well-formedness maintained by the Python program: the `numpy` grid really
is `size × size`. -/
def Board.WF (b : Board) : Prop :=
  b.board.length = b.size ∧ ∀ row ∈ b.board, row.length = b.size

instance (b : Board) : Decidable b.WF := by
  unfold Board.WF
  exact instDecidableAnd

/-- Search scores: Python uses `float('-inf')`/`float('inf')` as alpha-beta
sentinels around integer evaluation values, embedded as `⊥`/`⊤` around `Int`. -/
abbrev Score := WithBot (WithTop Int)

/-- An integer evaluation value as a score. -/
def Score.ofInt (n : Int) : Score := ((n : WithTop Int) : WithBot (WithTop Int))

/-- `float('inf')`. -/
def Score.posInf : Score := ((⊤ : WithTop Int) : WithBot (WithTop Int))

/-- Embedding of `ai.py`'s `AI`: search depth, difficulty string, and the two
stone values (the constructor fixes `player = 2`, `opponent = 1`). -/
structure AI where
  depth : Nat := 2
  difficulty : String := "Normal"
  player : Nat := 2
  opponent : Nat := 1
deriving Repr, DecidableEq

/-- `AI.calculate_line_score`.  In every call site `count ≥ 1`, so the natural
subtraction `count - 1` agrees with Python's `count - 1`. -/
def AI.calculate_line_score (_ai : AI) (count blocked : Nat) : Nat :=
  if 5 ≤ count then 100000
  else
    let base := 10 ^ (count - 1)
    if blocked = 2 then 0
    else if blocked = 1 then base / 2
    else base

/-- One directional `while` loop of `AI.evaluate_position` with explicit fuel:
returns (stones counted, blocked ends contributed).  The loop advances only
while cells match `player`, so for unit directions fuel `size + 1` suffices. -/
def Board.scanLoop (b : Board) (player : Nat) (dx dy : Int) :
    Nat → Int → Int → Nat × Nat
  | 0, _, _ => (0, 0)
  | fuel + 1, nx, ny =>
    if 0 ≤ nx ∧ nx < (b.size : Int) ∧ 0 ≤ ny ∧ ny < (b.size : Int) then
      if b.cell nx ny = player then
        let r := b.scanLoop player dx dy fuel (nx + dx) (ny + dy)
        (r.1 + 1, r.2)
      else if b.cell nx ny ≠ 0 then (0, 1)
      else (0, 0)
    else (0, 0)

/-- `AI.evaluate_position`: per-direction contiguous count and blocked ends,
scored by `calculate_line_score` and summed over the four axes. -/
def AI.evaluate_position (ai : AI) (b : Board) (x y : Int) (player : Nat) : Nat :=
  winDirections.foldl (fun total d =>
    let f := b.scanLoop player d.1 d.2 (b.size + 1) (x + d.1) (y + d.2)
    let r := b.scanLoop player (-d.1) (-d.2) (b.size + 1) (x - d.1) (y - d.2)
    total + ai.calculate_line_score (1 + f.1 + r.1) (f.2 + r.2)) 0

/-- `AI.evaluate_board`: sum of positional scores, positive for the AI's own
stones and negative for opponent stones. -/
def AI.evaluate_board (ai : AI) (b : Board) : Int :=
  (List.range b.size).foldl (fun score y =>
    (List.range b.size).foldl (fun score2 x =>
      if b.cell (x : Int) (y : Int) ≠ 0 then
        let player := b.cell (x : Int) (y : Int)
        if player = ai.player then
          score2 + (ai.evaluate_position b (x : Int) (y : Int) player : Int)
        else
          score2 - (ai.evaluate_position b (x : Int) (y : Int) player : Int)
      else score2) score) 0

/-- `AI.is_game_over`: full board, or some occupied cell completes a win for
its occupant. -/
def AI.is_game_over (_ai : AI) (b : Board) : Bool :=
  b.is_full ||
    ((List.range b.size).any fun y => (List.range b.size).any fun x =>
      b.cell (x : Int) (y : Int) != 0 &&
        b.check_win (x : Int) (y : Int) (b.cell (x : Int) (y : Int)))

/-- The maximizing `for move in valid_moves` loop of `AI.minimax`,
parameterized by the recursive call `step` at depth-1.  Mirrors the source:
speculative `place_stone`, recurse, undo by direct cell reset, track the
running max and `alpha`, and break once `beta <= alpha`. -/
def searchMax (step : Board → Score → Score → Score × Board) (p : Nat) :
    List (Int × Int) → Board → Score → Score → Score → Score × Board
  | [], b, maxScore, _, _ => (maxScore, b)
  | (x, y) :: rest, b, maxScore, alpha, beta =>
    let b1 := (b.place_stone x y p).2
    let sb := step b1 alpha beta
    let b3 := sb.2.clear_cell x y
    let maxScore2 := max maxScore sb.1
    let alpha2 := max alpha sb.1
    if beta ≤ alpha2 then (maxScore2, b3)
    else searchMax step p rest b3 maxScore2 alpha2 beta

/-- The minimizing loop of `AI.minimax`, symmetric to `searchMax`. -/
def searchMin (step : Board → Score → Score → Score × Board) (p : Nat) :
    List (Int × Int) → Board → Score → Score → Score → Score × Board
  | [], b, minScore, _, _ => (minScore, b)
  | (x, y) :: rest, b, minScore, alpha, beta =>
    let b1 := (b.place_stone x y p).2
    let sb := step b1 alpha beta
    let b3 := sb.2.clear_cell x y
    let minScore2 := min minScore sb.1
    let beta2 := min beta sb.1
    if beta2 ≤ alpha then (minScore2, b3)
    else searchMin step p rest b3 minScore2 alpha beta2

/-- `AI.minimax`: depth 0 or a terminal position returns the static
evaluation; otherwise the maximizing/minimizing loop over the legal moves with
alpha-beta pruning.  The board after the call is the second component. -/
def AI.minimax (ai : AI) : Nat → Board → Bool → Score → Score → Score × Board
  | 0, b, _, _, _ => (Score.ofInt (ai.evaluate_board b), b)
  | d + 1, b, maxing, alpha, beta =>
    if ai.is_game_over b then (Score.ofInt (ai.evaluate_board b), b)
    else if maxing then
      searchMax (fun b1 a2 b2 => ai.minimax d b1 false a2 b2) ai.player
        b.get_valid_moves b ⊥ alpha beta
    else
      searchMin (fun b1 a2 b2 => ai.minimax d b1 true a2 b2) ai.opponent
        b.get_valid_moves b Score.posInf alpha beta

/-- The move-selection loop of `AI._minimax_move`: each candidate is played,
scored by `minimax(depth-1, False, -inf, +inf)`, retracted, and kept only when
its score strictly beats the running best. -/
def AI.mmLoop (ai : AI) (d : Nat) :
    List (Int × Int) → Board → Score → Option (Int × Int) →
      (Option (Int × Int)) × Board
  | [], b, _, best => (best, b)
  | (x, y) :: rest, b, bestScore, best =>
    let b1 := (b.place_stone x y ai.player).2
    let sb := ai.minimax d b1 false ⊥ Score.posInf
    let b3 := sb.2.clear_cell x y
    if bestScore < sb.1 then ai.mmLoop d rest b3 sb.1 (some (x, y))
    else ai.mmLoop d rest b3 bestScore best

/-- `AI._minimax_move`: `None` on an empty move list, otherwise the best-found
move of the selection loop. -/
def AI.minimax_move (ai : AI) (b : Board) (depth : Nat) :
    (Option (Int × Int)) × Board :=
  let valid := b.get_valid_moves
  if valid.isEmpty then (none, b)
  else ai.mmLoop (depth - 1) valid b ⊥ none

/-- One Easy-tier scan of `AI.get_best_move`: speculatively place `p` on each
candidate in order, return the first whose placement wins (after resetting the
cell), resetting the cell before moving on otherwise. -/
def easyScan (p : Nat) : List (Int × Int) → Board → (Option (Int × Int)) × Board
  | [], b => (none, b)
  | (x, y) :: rest, b =>
    let b1 := (b.place_stone x y p).2
    if b1.check_win x y p then (some (x, y), b1.clear_cell x y)
    else easyScan p rest (b1.clear_cell x y)

/-- `AI.get_best_move`.  `rnd` models the state of `random.choice`, which on a
nonempty list picks the element at some index below its length. -/
def AI.get_best_move (ai : AI) (b : Board) (rnd : Nat) :
    (Option (Int × Int)) × Board :=
  let valid := b.get_valid_moves
  if valid.isEmpty then (none, b)
  else if ai.difficulty == "Easy" then
    let s1 := easyScan ai.player valid b
    match s1.1 with
    | some m => (some m, s1.2)
    | none =>
      let s2 := easyScan ai.opponent valid s1.2
      match s2.1 with
      | some m => (some m, s2.2)
      | none => (some (valid.getD (rnd % valid.length) (0, 0)), s2.2)
  else if ai.difficulty == "Normal" then ai.minimax_move b 1
  else if ai.difficulty == "Hard" then ai.minimax_move b 3
  else ai.minimax_move b 2

/-! ### Basic list and grid lemmas -/

theorem getD_set_eq {α : Type} (l : List α) (i : Nat) (a d : α)
    (h : i < l.length) : (l.set i a).getD i d = a := by
  rw [List.getD_eq_getElem?_getD, List.getElem?_set, if_pos rfl, if_pos h]
  rfl

theorem getD_set_ne {α : Type} (l : List α) (i j : Nat) (a d : α)
    (h : i ≠ j) : (l.set i a).getD j d = l.getD j d := by
  rw [List.getD_eq_getElem?_getD, List.getElem?_set, if_neg h,
    ← List.getD_eq_getElem?_getD]

theorem set_zero_of_getD (l : List Nat) (i : Nat) (h : l.getD i 0 = 0) :
    l.set i 0 = l := by
  rcases lt_or_le i l.length with hi | hi
  · apply List.ext_getElem (by simp)
    intro n h1 h2
    rw [List.getElem_set]
    split
    · next he =>
      subst he
      rw [List.getD_eq_getElem _ _ hi] at h
      exact h.symm
    · rfl
  · exact List.set_eq_of_length_le hi

theorem set_getD_self (B : List (List Nat)) (i : Nat) :
    B.set i (B.getD i []) = B := by
  rcases lt_or_le i B.length with h | h
  · apply List.ext_getElem (by simp)
    intro n h1 h2
    rw [List.getElem_set]
    split
    · next he => subst he; rw [List.getD_eq_getElem _ _ h]
    · rfl
  · exact List.set_eq_of_length_le h

theorem Board.is_valid_move_iff (b : Board) (x y : Int) :
    b.is_valid_move x y = true ↔
      0 ≤ x ∧ x < (b.size : Int) ∧ 0 ≤ y ∧ y < (b.size : Int) ∧
        b.cell x y = 0 := by
  unfold Board.is_valid_move
  by_cases hx : x < 0 ∨ (b.size : Int) ≤ x ∨ y < 0 ∨ (b.size : Int) ≤ y
  · rw [if_pos hx]
    constructor
    · intro h; simp at h
    · rintro ⟨h1, h2, h3, h4, -⟩; exfalso; omega
  · rw [if_neg hx]
    push_neg at hx
    simp only [beq_iff_eq]
    exact ⟨fun h => ⟨hx.1, hx.2.1, hx.2.2.1, hx.2.2.2, h⟩,
      fun h => h.2.2.2.2⟩

theorem Board.cell_setCell_eq (b : Board) (x y : Int) (v : Nat)
    (hb : b.WF) (hx : 0 ≤ x) (hx2 : x < (b.size : Int)) (hy : 0 ≤ y)
    (hy2 : y < (b.size : Int)) : (b.setCell x y v).cell x y = v := by
  obtain ⟨hlen, hrow⟩ := hb
  have hyl : y.toNat < b.board.length := by omega
  have hxl : x.toNat < (b.board.getD y.toNat []).length := by
    rw [List.getD_eq_getElem _ _ hyl]
    have := hrow _ (List.getElem_mem hyl)
    omega
  unfold Board.setCell Board.cell
  simp only
  rw [getD_set_eq _ _ _ _ hyl, getD_set_eq _ _ _ _ hxl]

theorem Board.cell_setCell_ne (b : Board) (x y x2 y2 : Int) (v : Nat)
    (h : x.toNat ≠ x2.toNat ∨ y.toNat ≠ y2.toNat) :
    (b.setCell x y v).cell x2 y2 = b.cell x2 y2 := by
  unfold Board.setCell Board.cell
  simp only
  by_cases hy : y.toNat = y2.toNat
  · have hx : x.toNat ≠ x2.toNat := by tauto
    rw [hy]
    rcases lt_or_le y2.toNat b.board.length with hyl | hyl
    · rw [getD_set_eq _ _ _ _ hyl, getD_set_ne _ _ _ _ _ hx]
    · rw [List.set_eq_of_length_le hyl]
  · rw [getD_set_ne _ _ _ _ _ hy]

/-- Retracting a speculative stone restores the board exactly: a valid
`place_stone` followed by the search engine's cell reset is the identity. -/
theorem place_clear (b : Board) (x y : Int) (p : Nat)
    (h : b.is_valid_move x y = true) :
    ((b.place_stone x y p).2).clear_cell x y = b := by
  obtain ⟨hx, hx2, hy, hy2, hc⟩ := (Board.is_valid_move_iff b x y).mp h
  unfold Board.place_stone
  rw [if_pos h]
  unfold Board.clear_cell Board.setCell Board.cell at *
  simp only
  rcases lt_or_le y.toNat b.board.length with hyl | hyl
  · rw [getD_set_eq _ _ _ _ hyl, List.set_set, List.set_set,
      set_zero_of_getD _ _ hc, set_getD_self]
  · have h1 : b.board.set y.toNat ((b.board.getD y.toNat []).set x.toNat p) =
        b.board := List.set_eq_of_length_le hyl
    rw [h1, List.set_eq_of_length_le hyl]

theorem Board.WF_setCell (b : Board) (x y : Int) (v : Nat) (hb : b.WF) :
    (b.setCell x y v).WF := by
  obtain ⟨h1, h2⟩ := hb
  rcases lt_or_le y.toNat b.board.length with hyl | hyl
  · refine ⟨by simp [Board.setCell, h1], ?_⟩
    intro row hrow
    rcases List.mem_or_eq_of_mem_set hrow with h | h
    · exact h2 _ h
    · subst h
      rw [List.length_set, List.getD_eq_getElem _ _ hyl]
      exact h2 _ (List.getElem_mem hyl)
  · have : b.setCell x y v = b := by
      unfold Board.setCell
      rw [List.set_eq_of_length_le hyl]
    rw [this]
    exact ⟨h1, h2⟩

theorem Board.WF_place (b : Board) (x y : Int) (p : Nat) (hb : b.WF) :
    (b.place_stone x y p).2.WF := by
  unfold Board.place_stone
  split
  · exact b.WF_setCell x y p hb
  · exact hb

theorem Board.WF_clear (b : Board) (x y : Int) (hb : b.WF) :
    (b.clear_cell x y).WF :=
  b.WF_setCell x y 0 hb

/-! ### C5: place_stone success/failure contract -/

/-- C5: when `(x, y)` is in range and the cell is Empty, `place_stone` returns
true and sets exactly that cell to `player`; otherwise — negative coordinates,
coordinates at or beyond `size`, or an occupied cell — it returns false and
the grid is unchanged. -/
theorem C5_place_stone (b : Board) (x y : Int) (p : Nat) (hb : b.WF) :
    (b.is_valid_move x y = true →
      (b.place_stone x y p).1 = true ∧
      (b.place_stone x y p).2.cell x y = p ∧
      (∀ x2 y2 : Int, 0 ≤ x2 → x2 < (b.size : Int) → 0 ≤ y2 →
        y2 < (b.size : Int) → ¬(x2 = x ∧ y2 = y) →
        (b.place_stone x y p).2.cell x2 y2 = b.cell x2 y2)) ∧
    (b.is_valid_move x y = false →
      (b.place_stone x y p).1 = false ∧ (b.place_stone x y p).2 = b) ∧
    ((x < 0 ∨ (b.size : Int) ≤ x ∨ y < 0 ∨ (b.size : Int) ≤ y ∨
        b.cell x y ≠ 0) →
      b.is_valid_move x y = false) := by
  refine ⟨fun h => ?_, fun h => ?_, fun h => ?_⟩
  · obtain ⟨hx, hx2, hy, hy2, hc⟩ := (Board.is_valid_move_iff b x y).mp h
    unfold Board.place_stone
    rw [if_pos h]
    refine ⟨rfl, b.cell_setCell_eq x y p hb hx hx2 hy hy2, ?_⟩
    intro x2 y2 g1 g2 g3 g4 g5
    exact b.cell_setCell_ne x y x2 y2 p (by omega)
  · unfold Board.place_stone
    rw [if_neg (by simp [h])]
    exact ⟨rfl, rfl⟩
  · cases hv : b.is_valid_move x y
    · rfl
    · obtain ⟨hx, hx2, hy, hy2, hc⟩ := (Board.is_valid_move_iff b x y).mp hv
      rcases h with h | h | h | h | h
      · omega
      · omega
      · omega
      · omega
      · exact absurd hc h

/-- Witness for C5 at a concrete board: the hypotheses hold and placing on the
valid empty cell `(1, 2)` succeeds. -/
theorem C5_place_stone_witness :
    (Board.init 3).WF ∧ (Board.init 3).is_valid_move 1 2 = true ∧
      ((Board.init 3).place_stone 1 2 1).1 = true :=
  ⟨by decide, by decide,
    ((C5_place_stone (Board.init 3) 1 2 1 (by decide)).1 (by decide)).1⟩

/-! ### C7: line score policy -/

/-- C7: for `count ≥ 1` and `blocked ∈ {0, 1, 2}`, the line score is 100000
once `count ≥ 5`, else 0 when both ends are blocked, else `10^(count-1)`
halved by integer division when exactly one end is blocked. -/
theorem C7_line_score (ai : AI) (count blocked : Nat) (hc : 1 ≤ count) :
    (5 ≤ count → ai.calculate_line_score count blocked = 100000) ∧
    (count < 5 → blocked = 2 → ai.calculate_line_score count blocked = 0) ∧
    (count < 5 → blocked = 1 →
      ai.calculate_line_score count blocked = 10 ^ (count - 1) / 2) ∧
    (count < 5 → blocked = 0 →
      ai.calculate_line_score count blocked = 10 ^ (count - 1)) := by
  unfold AI.calculate_line_score
  refine ⟨fun h => by rw [if_pos h], fun h h2 => ?_, fun h h2 => ?_,
    fun h h2 => ?_⟩ <;> rw [if_neg (by omega)] <;> simp [h2]

/-- Witness for C7: a three-stone line with one blocked end scores
`10^2 / 2 = 50`. -/
theorem C7_line_score_witness :
    1 ≤ 3 ∧ ({ } : AI).calculate_line_score 3 1 = 10 ^ (3 - 1) / 2 :=
  ⟨by decide, (C7_line_score { } 3 1 (by decide)).2.2.1 (by decide) rfl⟩

/-! ### C9: the undo operation -/

/-- C9: the search engine's undo (`clear_cell`, the embedding of the inline
reset `board.board[y][x] = 0` in ai.py) empties exactly its target cell
regardless of prior content; retracting a speculative stone through it
restores the original board, while `place_stone` on that occupied cell —
the undo the spec rules out — returns false and changes nothing. -/
theorem C9_clear_cell_undo (b : Board) (x y : Int) (p : Nat) (hb : b.WF)
    (hx : 0 ≤ x) (hx2 : x < (b.size : Int)) (hy : 0 ≤ y)
    (hy2 : y < (b.size : Int)) :
    ((b.clear_cell x y).cell x y = 0) ∧
    (∀ x2 y2 : Int, ¬(x2.toNat = x.toNat ∧ y2.toNat = y.toNat) →
      (b.clear_cell x y).cell x2 y2 = b.cell x2 y2) ∧
    (b.cell x y = 0 →
      ((b.place_stone x y p).2.clear_cell x y = b) ∧
      (p ≠ 0 →
        (b.place_stone x y p).2.place_stone x y 0 =
          (false, (b.place_stone x y p).2))) := by
  refine ⟨b.cell_setCell_eq x y 0 hb hx hx2 hy hy2, ?_, fun hc => ⟨?_, fun hp => ?_⟩⟩
  · intro x2 y2 h
    exact b.cell_setCell_ne x y x2 y2 0 (by tauto)
  · exact place_clear b x y p
      ((Board.is_valid_move_iff b x y).mpr ⟨hx, hx2, hy, hy2, hc⟩)
  · have hvalid : b.is_valid_move x y = true :=
      (Board.is_valid_move_iff b x y).mpr ⟨hx, hx2, hy, hy2, hc⟩
    have hcell : (b.place_stone x y p).2.cell x y = p := by
      unfold Board.place_stone
      rw [if_pos hvalid]
      exact b.cell_setCell_eq x y p hb hx hx2 hy hy2
    have hinvalid : (b.place_stone x y p).2.is_valid_move x y = false := by
      cases hv : (b.place_stone x y p).2.is_valid_move x y
      · rfl
      · obtain ⟨-, -, -, -, hc2⟩ :=
          (Board.is_valid_move_iff _ x y).mp hv
        have hsz : (b.place_stone x y p).2.size = b.size := by
          unfold Board.place_stone
          split <;> rfl
        exact absurd (hcell ▸ hc2) hp
    conv in (b.place_stone x y p).2.place_stone x y 0 =>
      rw [Board.place_stone, if_neg (by simp [hinvalid])]

/-- Witness for C9 at a concrete board: an occupied cell is reset to Empty by
`clear_cell`. -/
theorem C9_clear_cell_undo_witness :
    ((Board.init 3).place_stone 1 1 2).2.WF ∧
      ((((Board.init 3).place_stone 1 1 2).2).clear_cell 1 1).cell 1 1 = 0 :=
  ⟨by decide,
    (C9_clear_cell_undo (((Board.init 3).place_stone 1 1 2).2) 1 1 2
      (by decide) (by decide) (by decide) (by decide) (by decide)).1⟩

/-! ### C2: check_win counts contiguous runs in both directions -/

/-- Spec-side reading of one step along an axis: the cell `i` steps from
`(x, y)` in direction `(dx, dy)` is in range and holds `player`'s stone. -/
def MatchAt (b : Board) (x y dx dy : Int) (p : Nat) (i : Nat) : Prop :=
  0 ≤ x + i * dx ∧ x + i * dx < (b.size : Int) ∧
  0 ≤ y + i * dy ∧ y + i * dy < (b.size : Int) ∧
  b.cell (x + i * dx) (y + i * dy) = p

theorem countLoop_sound (b : Board) (p : Nat) (dx dy : Int) :
    ∀ (fuel : Nat) (sx sy : Int) (i : Nat),
      i < b.countLoop p dx dy fuel sx sy →
      0 ≤ sx + i * dx ∧ sx + i * dx < (b.size : Int) ∧
      0 ≤ sy + i * dy ∧ sy + i * dy < (b.size : Int) ∧
      b.cell (sx + i * dx) (sy + i * dy) = p := by
  intro fuel
  induction fuel with
  | zero => intro sx sy i h; simp [Board.countLoop] at h
  | succ f ih =>
    intro sx sy i h
    rw [Board.countLoop] at h
    split at h
    · next hg =>
      cases i with
      | zero => simpa using hg
      | succ i2 =>
        have hrec := ih (sx + dx) (sy + dy) i2 (by omega)
        have e1 : sx + ((i2 + 1 : Nat) : Int) * dx = sx + dx + i2 * dx := by
          push_cast; ring
        have e2 : sy + ((i2 + 1 : Nat) : Int) * dy = sy + dy + i2 * dy := by
          push_cast; ring
        rw [e1, e2]
        exact hrec
    · omega

theorem countLoop_ge (b : Board) (p : Nat) (dx dy : Int) :
    ∀ (k fuel : Nat) (sx sy : Int), k ≤ fuel →
      (∀ i : Nat, i < k →
        0 ≤ sx + i * dx ∧ sx + i * dx < (b.size : Int) ∧
        0 ≤ sy + i * dy ∧ sy + i * dy < (b.size : Int) ∧
        b.cell (sx + i * dx) (sy + i * dy) = p) →
      k ≤ b.countLoop p dx dy fuel sx sy := by
  intro k
  induction k with
  | zero => intro fuel sx sy _ _; omega
  | succ k2 ih =>
    intro fuel sx sy hf hp
    obtain ⟨f, rfl⟩ : ∃ f, fuel = f + 1 := ⟨fuel - 1, by omega⟩
    rw [Board.countLoop, if_pos (by simpa using hp 0 (by omega))]
    have hge := ih f (sx + dx) (sy + dy) (by omega) ?_
    · omega
    · intro i hi
      have hm := hp (i + 1) (by omega)
      have e1 : sx + ((i + 1 : Nat) : Int) * dx = sx + dx + i * dx := by
        push_cast; ring
      have e2 : sy + ((i + 1 : Nat) : Int) * dy = sy + dy + i * dy := by
        push_cast; ring
      rw [e1, e2] at hm
      exact hm

/-- A matching run along a unit direction cannot be longer than the board. -/
theorem matchRun_le_size (b : Board) (p : Nat) (dx dy : Int)
    (hd : dx = 1 ∨ dx = -1 ∨ dy = 1 ∨ dy = -1) (sx sy : Int) (k : Nat)
    (hp : ∀ i : Nat, i < k →
      0 ≤ sx + i * dx ∧ sx + i * dx < (b.size : Int) ∧
      0 ≤ sy + i * dy ∧ sy + i * dy < (b.size : Int) ∧
      b.cell (sx + i * dx) (sy + i * dy) = p) :
    k ≤ b.size := by
  by_contra hk
  push_neg at hk
  have h0 := hp 0 (by omega)
  have h1 := hp b.size (by omega)
  rcases hd with h | h | h | h <;> subst h <;>
    simp only [Nat.cast_zero, zero_mul, add_zero, mul_one, mul_neg_one] at h0 h1 <;>
    omega

theorem count_direction_sound (b : Board) (x y dx dy : Int) (p : Nat) :
    ∀ i : Nat, 1 ≤ i → i ≤ b.count_direction x y dx dy p →
      MatchAt b x y dx dy p i := by
  intro i h1 h2
  obtain ⟨j, rfl⟩ : ∃ j, i = j + 1 := ⟨i - 1, by omega⟩
  have hs := countLoop_sound b p dx dy (b.size + 1) (x + dx) (y + dy) j (by
    unfold Board.count_direction at h2; omega)
  unfold MatchAt
  have e1 : x + ((j + 1 : Nat) : Int) * dx = x + dx + j * dx := by
    push_cast; ring
  have e2 : y + ((j + 1 : Nat) : Int) * dy = y + dy + j * dy := by
    push_cast; ring
  rw [e1, e2]
  exact hs

theorem count_direction_ge (b : Board) (x y dx dy : Int) (p : Nat) (k : Nat)
    (hd : dx = 1 ∨ dx = -1 ∨ dy = 1 ∨ dy = -1)
    (hm : ∀ i : Nat, 1 ≤ i → i ≤ k → MatchAt b x y dx dy p i) :
    k ≤ b.count_direction x y dx dy p := by
  have hp : ∀ i : Nat, i < k →
      0 ≤ (x + dx) + i * dx ∧ (x + dx) + i * dx < (b.size : Int) ∧
      0 ≤ (y + dy) + i * dy ∧ (y + dy) + i * dy < (b.size : Int) ∧
      b.cell ((x + dx) + i * dx) ((y + dy) + i * dy) = p := by
    intro i hi
    have hmi := hm (i + 1) (by omega) (by omega)
    unfold MatchAt at hmi
    have e1 : x + ((i + 1 : Nat) : Int) * dx = x + dx + i * dx := by
      push_cast; ring
    have e2 : y + ((i + 1 : Nat) : Int) * dy = y + dy + i * dy := by
      push_cast; ring
    rw [e1, e2] at hmi
    exact hmi
  have hk := matchRun_le_size b p dx dy hd (x + dx) (y + dy) k hp
  exact countLoop_ge b p dx dy k (b.size + 1) (x + dx) (y + dy) (by omega) hp

/-- Sequential placement of several stones of one player, used to build the
spec's concrete test boards. -/
def placeList (p : Nat) : Board → List (Int × Int) → Board
  | b, [] => b
  | b, m :: rest => placeList p (b.place_stone m.1 m.2 p).2 rest

/-- The spec's "no false win" board: exactly four contiguous stones of player
1 in row 7 of a fresh 15 × 15 board. -/
def fourRowBoard : Board :=
  placeList 1 (Board.init 15) [(0, 7), (1, 7), (2, 7), (3, 7)]

/-- C2: `check_win(x, y, player)` is true iff along one of the four axes
through `(x, y)` a contiguous run of the player's stones, counted in both
directions and including `(x, y)` itself, reaches length 5; and on the board
holding exactly four contiguous stones it is false at the last placed cell. -/
theorem C2_check_win (b : Board) (hwl : b.win_length = 5) (x y : Int)
    (p : Nat) :
    (b.check_win x y p = true ↔
      ∃ d ∈ winDirections, ∃ k1 k2 : Nat,
        (∀ i : Nat, 1 ≤ i → i ≤ k1 → MatchAt b x y d.1 d.2 p i) ∧
        (∀ i : Nat, 1 ≤ i → i ≤ k2 → MatchAt b x y (-d.1) (-d.2) p i) ∧
        5 ≤ 1 + k1 + k2) ∧
    fourRowBoard.check_win 3 7 1 = false := by
  constructor
  · constructor
    · intro h
      rw [Board.check_win, List.any_eq_true] at h
      obtain ⟨d, hd, hle⟩ := h
      rw [decide_eq_true_eq, hwl] at hle
      exact ⟨d, hd, b.count_direction x y d.1 d.2 p,
        b.count_direction x y (-d.1) (-d.2) p,
        count_direction_sound b x y d.1 d.2 p,
        count_direction_sound b x y (-d.1) (-d.2) p, hle⟩
    · rintro ⟨d, hd, k1, k2, hm1, hm2, hsum⟩
      have hdir : (d.1 = 1 ∨ d.1 = -1 ∨ d.2 = 1 ∨ d.2 = -1) ∧
          (-d.1 = 1 ∨ -d.1 = -1 ∨ -d.2 = 1 ∨ -d.2 = -1) := by
        simp only [winDirections, List.mem_cons, List.mem_singleton] at hd
        rcases hd with h | h | h | h | h <;> first
          | (subst h; norm_num)
          | exact absurd h (List.not_mem_nil d)
      have hc1 := count_direction_ge b x y d.1 d.2 p k1 hdir.1 hm1
      have hc2 := count_direction_ge b x y (-d.1) (-d.2) p k2 hdir.2 hm2
      rw [Board.check_win, List.any_eq_true]
      exact ⟨d, hd, by rw [decide_eq_true_eq, hwl]; omega⟩
  · decide

/-- Witness for C2: on the four-stone board `check_win` at `(3, 7)` is false,
so by the characterization no axis through `(3, 7)` carries a run of 5. -/
theorem C2_check_win_witness :
    fourRowBoard.win_length = 5 ∧
      (fourRowBoard.check_win 3 7 1 = true ↔
        ∃ d ∈ winDirections, ∃ k1 k2 : Nat,
          (∀ i : Nat, 1 ≤ i → i ≤ k1 → MatchAt fourRowBoard 3 7 d.1 d.2 1 i) ∧
          (∀ i : Nat, 1 ≤ i → i ≤ k2 →
            MatchAt fourRowBoard 3 7 (-d.1) (-d.2) 1 i) ∧
          5 ≤ 1 + k1 + k2) :=
  ⟨by decide, (C2_check_win fourRowBoard (by decide) 3 7 1).1⟩

/-! ### C1: search restores the board on every exit path -/

theorem mem_get_valid_moves_iff (b : Board) (m : Int × Int) :
    m ∈ b.get_valid_moves ↔ b.is_valid_move m.1 m.2 = true := by
  unfold Board.get_valid_moves
  rw [List.mem_flatMap]
  constructor
  · rintro ⟨y, hy, hm⟩
    rw [List.mem_filterMap] at hm
    obtain ⟨x, hx, hm⟩ := hm
    split at hm
    · next hv =>
      cases hm
      exact hv
    · cases hm
  · intro hv
    obtain ⟨hx, hx2, hy, hy2, -⟩ := (Board.is_valid_move_iff b m.1 m.2).mp hv
    have hy3 : m.2.toNat ∈ List.range b.size := List.mem_range.mpr (by omega)
    have hx3 : m.1.toNat ∈ List.range b.size := List.mem_range.mpr (by omega)
    refine ⟨m.2.toNat, hy3, ?_⟩
    rw [List.mem_filterMap]
    refine ⟨m.1.toNat, hx3, ?_⟩
    rw [Int.toNat_of_nonneg hx, Int.toNat_of_nonneg hy, if_pos hv]

theorem searchMax_restore (step : Board → Score → Score → Score × Board)
    (p : Nat) (hstep : ∀ b2 a2 b3, (step b2 a2 b3).2 = b2) :
    ∀ (moves : List (Int × Int)) (b : Board) (maxScore alpha beta : Score),
      (∀ m ∈ moves, b.is_valid_move m.1 m.2 = true) →
      (searchMax step p moves b maxScore alpha beta).2 = b := by
  intro moves
  induction moves with
  | nil => intro b ms a bt _; rfl
  | cons m rest ih =>
    intro b ms a bt hv
    obtain ⟨x, y⟩ := m
    have hvm := hv (x, y) (List.mem_cons_self _ _)
    simp only [searchMax, hstep, place_clear b x y p hvm]
    split
    · rfl
    · exact ih b _ _ _ (fun m2 hm2 => hv m2 (List.mem_cons_of_mem _ hm2))

theorem searchMin_restore (step : Board → Score → Score → Score × Board)
    (p : Nat) (hstep : ∀ b2 a2 b3, (step b2 a2 b3).2 = b2) :
    ∀ (moves : List (Int × Int)) (b : Board) (minScore alpha beta : Score),
      (∀ m ∈ moves, b.is_valid_move m.1 m.2 = true) →
      (searchMin step p moves b minScore alpha beta).2 = b := by
  intro moves
  induction moves with
  | nil => intro b ms a bt _; rfl
  | cons m rest ih =>
    intro b ms a bt hv
    obtain ⟨x, y⟩ := m
    have hvm := hv (x, y) (List.mem_cons_self _ _)
    simp only [searchMin, hstep, place_clear b x y p hvm]
    split
    · rfl
    · exact ih b _ _ _ (fun m2 hm2 => hv m2 (List.mem_cons_of_mem _ hm2))

theorem minimax_restore (ai : AI) :
    ∀ (d : Nat) (b : Board) (maxing : Bool) (alpha beta : Score),
      (ai.minimax d b maxing alpha beta).2 = b := by
  intro d
  induction d with
  | zero => intro b maxing a bt; rfl
  | succ d2 ih =>
    intro b maxing a bt
    rw [AI.minimax]
    split
    · rfl
    · split
      · exact searchMax_restore _ _ (fun b2 a2 b3 => ih b2 false a2 b3) _ b
          _ a bt (fun m hm => (mem_get_valid_moves_iff b m).mp hm)
      · exact searchMin_restore _ _ (fun b2 a2 b3 => ih b2 true a2 b3) _ b
          _ a bt (fun m hm => (mem_get_valid_moves_iff b m).mp hm)

theorem mmLoop_restore (ai : AI) (d : Nat) :
    ∀ (moves : List (Int × Int)) (b : Board) (bestScore : Score)
      (best : Option (Int × Int)),
      (∀ m ∈ moves, b.is_valid_move m.1 m.2 = true) →
      (ai.mmLoop d moves b bestScore best).2 = b := by
  intro moves
  induction moves with
  | nil => intro b bs best _; rfl
  | cons m rest ih =>
    intro b bs best hv
    obtain ⟨x, y⟩ := m
    have hvm := hv (x, y) (List.mem_cons_self _ _)
    simp only [AI.mmLoop, minimax_restore, place_clear b x y ai.player hvm]
    split
    · exact ih b _ _ (fun m2 hm2 => hv m2 (List.mem_cons_of_mem _ hm2))
    · exact ih b _ _ (fun m2 hm2 => hv m2 (List.mem_cons_of_mem _ hm2))

theorem minimax_move_restore (ai : AI) (b : Board) (depth : Nat) :
    (ai.minimax_move b depth).2 = b := by
  rw [AI.minimax_move]
  split
  · rfl
  · exact mmLoop_restore ai _ _ b _ _
      (fun m hm => (mem_get_valid_moves_iff b m).mp hm)

theorem easyScan_restore (p : Nat) :
    ∀ (moves : List (Int × Int)) (b : Board),
      (∀ m ∈ moves, b.is_valid_move m.1 m.2 = true) →
      (easyScan p moves b).2 = b := by
  intro moves
  induction moves with
  | nil => intro b _; rfl
  | cons m rest ih =>
    intro b hv
    obtain ⟨x, y⟩ := m
    have hvm := hv (x, y) (List.mem_cons_self _ _)
    simp only [easyScan, place_clear b x y p hvm]
    split
    · rfl
    · exact ih b (fun m2 hm2 => hv m2 (List.mem_cons_of_mem _ hm2))

theorem get_best_move_restore (ai : AI) (b : Board) (rnd : Nat) :
    (ai.get_best_move b rnd).2 = b := by
  have hv : ∀ m ∈ b.get_valid_moves, b.is_valid_move m.1 m.2 = true :=
    fun m hm => (mem_get_valid_moves_iff b m).mp hm
  simp only [AI.get_best_move]
  split
  · rfl
  · split
    · cases hE1 : (easyScan ai.player b.get_valid_moves b).1 with
      | some m => exact easyScan_restore ai.player b.get_valid_moves b hv
      | none =>
        rw [easyScan_restore ai.player b.get_valid_moves b hv]
        cases hE2 : (easyScan ai.opponent b.get_valid_moves b).1 with
        | some m => exact easyScan_restore ai.opponent b.get_valid_moves b hv
        | none => exact easyScan_restore ai.opponent b.get_valid_moves b hv
    · split
      · exact minimax_move_restore ai b 1
      · split
        · exact minimax_move_restore ai b 3
        · exact minimax_move_restore ai b 2

/-- C1: every search entry point returns with the board cell-for-cell equal
to its pre-call contents — the recursive `minimax` at any depth, alpha/beta
window and side to move, the `_minimax_move` wrapper, and `get_best_move` at
every difficulty tier including the Easy tier's speculative probes. -/
theorem C1_board_restored (ai : AI) (b : Board) :
    (∀ (depth : Nat) (maxing : Bool) (alpha beta : Score),
      (ai.minimax depth b maxing alpha beta).2 = b) ∧
    (∀ depth : Nat, (ai.minimax_move b depth).2 = b) ∧
    (∀ rnd : Nat, (ai.get_best_move b rnd).2 = b) :=
  ⟨fun depth maxing alpha beta => minimax_restore ai depth b maxing alpha beta,
    fun depth => minimax_move_restore ai b depth,
    fun rnd => get_best_move_restore ai b rnd⟩

/-! ### C3: a move is produced exactly when a legal move exists -/

theorem cell_getElem (b : Board) (i j : Nat) (hj : j < b.board.length)
    (hi : i < (b.board[j]).length) :
    b.cell (i : Int) (j : Int) = b.board[j][i] := by
  unfold Board.cell
  rw [Int.toNat_natCast, Int.toNat_natCast, List.getD_eq_getElem _ _ hj,
    List.getD_eq_getElem _ _ hi]

theorem valid_moves_nil_is_full (b : Board) (hb : b.WF)
    (h : b.get_valid_moves = []) : b.is_full = true := by
  obtain ⟨hlen, hrow⟩ := hb
  rw [Board.is_full, List.all_eq_true]
  intro row hrowmem
  rw [List.all_eq_true]
  intro c hc
  obtain ⟨j, hj, rfl⟩ := List.mem_iff_getElem.mp hrowmem
  obtain ⟨i, hi, rfl⟩ := List.mem_iff_getElem.mp hc
  by_contra hcon
  have hc0 : b.board[j][i] = 0 := by simpa using hcon
  have hcell : b.cell (i : Int) (j : Int) = 0 := by
    rw [cell_getElem b i j hj hi]
    exact hc0
  have hilt : i < b.size := by
    have := hrow _ (List.getElem_mem hj)
    omega
  have hvalid : b.is_valid_move (i : Int) (j : Int) = true :=
    (Board.is_valid_move_iff b _ _).mpr
      ⟨by positivity, by exact_mod_cast hilt, by positivity,
        by exact_mod_cast (by omega : j < b.size), hcell⟩
  have : ((i : Int), (j : Int)) ∈ b.get_valid_moves :=
    (mem_get_valid_moves_iff b _).mpr hvalid
  rw [h] at this
  exact absurd this (List.not_mem_nil _)

theorem game_over_of_no_moves (ai : AI) (b : Board) (hb : b.WF)
    (h : b.get_valid_moves = []) : ai.is_game_over b = true := by
  rw [AI.is_game_over, Bool.or_eq_true]
  exact Or.inl (valid_moves_nil_is_full b hb h)

theorem max_ne_bot_left {a b : Score} (h : a ≠ ⊥) : max a b ≠ ⊥ := by
  intro hc
  have := le_max_left a b
  rw [hc] at this
  exact h (le_bot_iff.mp this)

theorem max_ne_bot_right {a b : Score} (h : b ≠ ⊥) : max a b ≠ ⊥ := by
  intro hc
  have := le_max_right a b
  rw [hc] at this
  exact h (le_bot_iff.mp this)

theorem bot_ne_posInf : (⊥ : Score) ≠ Score.posInf := by
  rw [Score.posInf]
  simp

theorem ofInt_ne_bot (n : Int) : Score.ofInt n ≠ ⊥ := WithBot.coe_ne_bot

theorem ofInt_ne_posInf (n : Int) : Score.ofInt n ≠ Score.posInf := by
  rw [Score.ofInt, Score.posInf]
  simp only [ne_eq, WithBot.coe_inj]
  exact WithTop.coe_ne_top

theorem searchMax_fin (step : Board → Score → Score → Score × Board) (p : Nat)
    (hrestore : ∀ b2 a2 b3, (step b2 a2 b3).2 = b2)
    (hstep : ∀ b2 a2 b3, b2.WF →
      (step b2 a2 b3).1 ≠ ⊥ ∧ (step b2 a2 b3).1 ≠ Score.posInf) :
    ∀ (moves : List (Int × Int)) (b : Board) (ms alpha beta : Score), b.WF →
      (∀ m ∈ moves, b.is_valid_move m.1 m.2 = true) →
      ms ≠ Score.posInf → (ms ≠ ⊥ ∨ moves ≠ []) →
      (searchMax step p moves b ms alpha beta).1 ≠ ⊥ ∧
      (searchMax step p moves b ms alpha beta).1 ≠ Score.posInf := by
  intro moves
  induction moves with
  | nil =>
    intro b ms a bt _ _ hms hne
    rcases hne with hne | hne
    · exact ⟨hne, hms⟩
    · exact absurd rfl hne
  | cons m rest ih =>
    intro b ms a bt hb hv hms hne
    obtain ⟨x, y⟩ := m
    have hb1 : ((b.place_stone x y p).2).WF := b.WF_place x y p hb
    obtain ⟨hs1, hs2⟩ := hstep (b.place_stone x y p).2 a bt hb1
    have hms2ne : max ms (step (b.place_stone x y p).2 a bt).1 ≠ ⊥ :=
      max_ne_bot_right hs1
    have hms2ne2 : max ms (step (b.place_stone x y p).2 a bt).1 ≠
        Score.posInf := by
      rcases max_choice ms (step (b.place_stone x y p).2 a bt).1 with h | h <;>
        rw [h]
      · exact hms
      · exact hs2
    simp only [searchMax, hrestore,
      place_clear b x y p (hv (x, y) (List.mem_cons_self _ _))]
    split
    · exact ⟨hms2ne, hms2ne2⟩
    · exact ih b _ _ _ hb (fun m2 hm2 => hv m2 (List.mem_cons_of_mem _ hm2))
        hms2ne2 (Or.inl hms2ne)

theorem posInf_eq_top : Score.posInf = (⊤ : Score) := rfl

theorem le_posInf (c : Score) : c ≤ Score.posInf := le_top

theorem min_ne_posInf_left {a b : Score} (h : a ≠ Score.posInf) :
    min a b ≠ Score.posInf := by
  intro hc
  have h2 := min_le_left a b
  rw [hc] at h2
  exact h (le_antisymm (le_posInf a) h2)

theorem min_ne_posInf_right {a b : Score} (h : b ≠ Score.posInf) :
    min a b ≠ Score.posInf := by
  intro hc
  have h2 := min_le_right a b
  rw [hc] at h2
  exact h (le_antisymm (le_posInf b) h2)

theorem searchMin_fin (step : Board → Score → Score → Score × Board) (p : Nat)
    (hrestore : ∀ b2 a2 b3, (step b2 a2 b3).2 = b2)
    (hstep : ∀ b2 a2 b3, b2.WF →
      (step b2 a2 b3).1 ≠ ⊥ ∧ (step b2 a2 b3).1 ≠ Score.posInf) :
    ∀ (moves : List (Int × Int)) (b : Board) (ms alpha beta : Score), b.WF →
      (∀ m ∈ moves, b.is_valid_move m.1 m.2 = true) →
      ms ≠ ⊥ → (ms ≠ Score.posInf ∨ moves ≠ []) →
      (searchMin step p moves b ms alpha beta).1 ≠ ⊥ ∧
      (searchMin step p moves b ms alpha beta).1 ≠ Score.posInf := by
  intro moves
  induction moves with
  | nil =>
    intro b ms a bt _ _ hms hne
    rcases hne with hne | hne
    · exact ⟨hms, hne⟩
    · exact absurd rfl hne
  | cons m rest ih =>
    intro b ms a bt hb hv hms hne
    obtain ⟨x, y⟩ := m
    have hb1 : ((b.place_stone x y p).2).WF := b.WF_place x y p hb
    obtain ⟨hs1, hs2⟩ := hstep (b.place_stone x y p).2 a bt hb1
    have hms2ne : min ms (step (b.place_stone x y p).2 a bt).1 ≠ ⊥ := by
      rcases min_choice ms (step (b.place_stone x y p).2 a bt).1 with h | h <;>
        rw [h]
      · exact hms
      · exact hs1
    have hms2ne2 : min ms (step (b.place_stone x y p).2 a bt).1 ≠
        Score.posInf := min_ne_posInf_right hs2
    simp only [searchMin, hrestore,
      place_clear b x y p (hv (x, y) (List.mem_cons_self _ _))]
    split
    · exact ⟨hms2ne, hms2ne2⟩
    · exact ih b _ _ _ hb (fun m2 hm2 => hv m2 (List.mem_cons_of_mem _ hm2))
        hms2ne (Or.inl hms2ne2)

theorem minimax_fin (ai : AI) : ∀ (d : Nat) (b : Board) (maxing : Bool)
    (alpha beta : Score), b.WF →
    (ai.minimax d b maxing alpha beta).1 ≠ ⊥ ∧
    (ai.minimax d b maxing alpha beta).1 ≠ Score.posInf := by
  intro d
  induction d with
  | zero =>
    intro b maxing a bt _
    exact ⟨ofInt_ne_bot _, ofInt_ne_posInf _⟩
  | succ d2 ih =>
    intro b maxing a bt hb
    rw [AI.minimax]
    split
    · exact ⟨ofInt_ne_bot _, ofInt_ne_posInf _⟩
    · next hgo =>
      have hmoves : b.get_valid_moves ≠ [] := by
        intro hnil
        exact hgo (by rw [game_over_of_no_moves ai b hb hnil])
      split
      · exact searchMax_fin _ ai.player
          (fun b2 a2 b3 => minimax_restore ai d2 b2 false a2 b3)
          (fun b2 a2 b3 hb2 => ih b2 false a2 b3 hb2)
          b.get_valid_moves b _ a bt hb
          (fun m hm => (mem_get_valid_moves_iff b m).mp hm)
          bot_ne_posInf (Or.inr hmoves)
      · exact searchMin_fin _ ai.opponent
          (fun b2 a2 b3 => minimax_restore ai d2 b2 true a2 b3)
          (fun b2 a2 b3 hb2 => ih b2 true a2 b3 hb2)
          b.get_valid_moves b _ a bt hb
          (fun m hm => (mem_get_valid_moves_iff b m).mp hm)
          (Ne.symm bot_ne_posInf) (Or.inr hmoves)

theorem mmLoop_some_keeps (ai : AI) (d : Nat) :
    ∀ (moves : List (Int × Int)) (b : Board) (s : Score) (m : Int × Int),
      (ai.mmLoop d moves b s (some m)).1.isSome = true := by
  intro moves
  induction moves with
  | nil => intro b s m; rfl
  | cons m2 rest ih =>
    intro b s m
    obtain ⟨x, y⟩ := m2
    simp only [AI.mmLoop]
    split
    · exact ih _ _ _
    · exact ih _ _ _

theorem mmLoop_bot_some (ai : AI) (d : Nat) (moves : List (Int × Int))
    (b : Board) (hb : b.WF) (hmoves : moves ≠ []) :
    (ai.mmLoop d moves b ⊥ none).1.isSome = true := by
  match moves, hmoves with
  | (x, y) :: rest, _ =>
    have hb1 := b.WF_place x y ai.player hb
    have hs := (minimax_fin ai d (b.place_stone x y ai.player).2 false ⊥
      Score.posInf hb1).1
    simp only [AI.mmLoop]
    rw [if_pos (bot_lt_iff_ne_bot.mpr hs)]
    exact mmLoop_some_keeps ai d rest _ _ _

theorem minimax_move_some (ai : AI) (b : Board) (depth : Nat) (hb : b.WF)
    (hne : b.get_valid_moves ≠ []) :
    (ai.minimax_move b depth).1.isSome = true := by
  simp only [AI.minimax_move]
  rw [if_neg (by simpa [List.isEmpty_iff] using hne)]
  exact mmLoop_bot_some ai _ _ b hb hne

theorem get_best_move_some (ai : AI) (b : Board) (rnd : Nat) (hb : b.WF)
    (hne : b.get_valid_moves ≠ []) :
    (ai.get_best_move b rnd).1.isSome = true := by
  simp only [AI.get_best_move]
  rw [if_neg (by simpa [List.isEmpty_iff] using hne)]
  split
  · cases hE1 : (easyScan ai.player b.get_valid_moves b).1 with
    | some m => rfl
    | none =>
      cases hE2 : (easyScan ai.opponent b.get_valid_moves
          (easyScan ai.player b.get_valid_moves b).2).1 with
      | some m => rfl
      | none => rfl
  · split
    · exact minimax_move_some ai b 1 hb hne
    · split
      · exact minimax_move_some ai b 3 hb hne
      · exact minimax_move_some ai b 2 hb hne

/-- C3: `get_best_move` returns no move exactly when the board has no legal
move left; with at least one empty cell it always produces a move, at every
difficulty tier. -/
theorem C3_none_iff_no_moves (ai : AI) (b : Board) (rnd : Nat) (hb : b.WF) :
    (ai.get_best_move b rnd).1 = none ↔ b.get_valid_moves = [] := by
  constructor
  · intro h
    by_contra hne
    have hs := get_best_move_some ai b rnd hb hne
    rw [h] at hs
    simp at hs
  · intro h
    simp only [AI.get_best_move]
    rw [if_pos (by simpa [List.isEmpty_iff] using h)]

/-- Witness for C3 on a concrete well-formed board with one empty cell. -/
theorem C3_none_iff_no_moves_witness :
    (Board.init 1).WF ∧
      ((({ } : AI).get_best_move (Board.init 1) 0).1 = none ↔
        (Board.init 1).get_valid_moves = []) :=
  ⟨by decide, C3_none_iff_no_moves { } (Board.init 1) 0 (by decide)⟩

/-! ### C10: any returned move is immediately playable -/

theorem easyScan_mem (p : Nat) :
    ∀ (moves : List (Int × Int)) (b : Board) (m : Int × Int),
      (easyScan p moves b).1 = some m → m ∈ moves := by
  intro moves
  induction moves with
  | nil => intro b m h; cases h
  | cons m2 rest ih =>
    intro b m h
    obtain ⟨x, y⟩ := m2
    simp only [easyScan] at h
    split at h
    · cases h
      exact List.mem_cons_self _ _
    · exact List.mem_cons_of_mem _ (ih _ m h)

theorem mmLoop_mem (ai : AI) (d : Nat) :
    ∀ (moves : List (Int × Int)) (b : Board) (s : Score)
      (best : Option (Int × Int)) (m : Int × Int),
      (ai.mmLoop d moves b s best).1 = some m → best = some m ∨ m ∈ moves := by
  intro moves
  induction moves with
  | nil => intro b s best m h; exact Or.inl h
  | cons m2 rest ih =>
    intro b s best m h
    obtain ⟨x, y⟩ := m2
    simp only [AI.mmLoop] at h
    split at h
    · rcases ih _ _ _ m h with h2 | h2
      · cases h2
        exact Or.inr (List.mem_cons_self _ _)
      · exact Or.inr (List.mem_cons_of_mem _ h2)
    · rcases ih _ _ _ m h with h2 | h2
      · exact Or.inl h2
      · exact Or.inr (List.mem_cons_of_mem _ h2)

theorem minimax_move_mem (ai : AI) (b : Board) (depth : Nat) (m : Int × Int)
    (h : (ai.minimax_move b depth).1 = some m) : m ∈ b.get_valid_moves := by
  simp only [AI.minimax_move] at h
  split at h
  · cases h
  · rcases mmLoop_mem ai _ _ b _ _ m h with h2 | h2
    · cases h2
    · exact h2

theorem getD_mod_mem {l : List (Int × Int)} (h : l ≠ []) (i : Nat) :
    l.getD (i % l.length) (0, 0) ∈ l := by
  have hlen : 0 < l.length := List.length_pos.mpr h
  have hi : i % l.length < l.length := Nat.mod_lt _ hlen
  rw [List.getD_eq_getElem _ _ hi]
  exact List.getElem_mem hi

/-- C10: whenever `get_best_move` returns a move at any difficulty tier, that
move is one of `get_valid_moves` — in range and on an Empty cell of the input
board, hence immediately playable. -/
theorem C10_returned_move_playable (ai : AI) (b : Board) (rnd : Nat)
    (m : Int × Int) (h : (ai.get_best_move b rnd).1 = some m) :
    m ∈ b.get_valid_moves ∧ b.is_valid_move m.1 m.2 = true ∧
      0 ≤ m.1 ∧ m.1 < (b.size : Int) ∧ 0 ≤ m.2 ∧ m.2 < (b.size : Int) ∧
      b.cell m.1 m.2 = 0 := by
  have hmem : m ∈ b.get_valid_moves := by
    by_cases hE : b.get_valid_moves.isEmpty = true
    · simp only [AI.get_best_move] at h
      rw [if_pos hE] at h
      cases h
    · simp only [AI.get_best_move] at h
      rw [if_neg hE] at h
      have hne : b.get_valid_moves ≠ [] := by
        simpa [List.isEmpty_iff] using hE
      split at h
      · revert h
        cases hE1 : (easyScan ai.player b.get_valid_moves b).1 with
        | some m2 =>
          intro h
          cases h
          exact easyScan_mem ai.player b.get_valid_moves b _ hE1
        | none =>
          cases hE2 : (easyScan ai.opponent b.get_valid_moves
              (easyScan ai.player b.get_valid_moves b).2).1 with
          | some m2 =>
            intro h
            cases h
            exact easyScan_mem ai.opponent b.get_valid_moves _ _ hE2
          | none =>
            intro h
            cases h
            exact getD_mod_mem hne rnd
      · split at h
        · exact minimax_move_mem ai b 1 m h
        · split at h
          · exact minimax_move_mem ai b 3 m h
          · exact minimax_move_mem ai b 2 m h
  have hvalid := (mem_get_valid_moves_iff b m).mp hmem
  obtain ⟨h1, h2, h3, h4, h5⟩ := (Board.is_valid_move_iff b m.1 m.2).mp hvalid
  exact ⟨hmem, hvalid, h1, h2, h3, h4, h5⟩

/-- Witness for C10: the Easy tier on an empty 2 × 2 board returns the move
`(1, 0)` for `rnd = 5`, and that move is indeed legal. -/
theorem C10_returned_move_playable_witness :
    (({ difficulty := "Easy" } : AI).get_best_move (Board.init 2) 5).1 =
        some (1, 0) ∧
      (1, 0) ∈ (Board.init 2).get_valid_moves :=
  ⟨by decide,
    (C10_returned_move_playable { difficulty := "Easy" } (Board.init 2) 5
      (1, 0) (by decide)).1⟩

/-! ### C6: Easy-tier policy — win, then block, then random -/

/-- The speculative probe of the Easy tier: placing `p`'s stone on candidate
`m` completes a win for `p` at that cell. -/
def winProbe (b : Board) (p : Nat) (m : Int × Int) : Bool :=
  ((b.place_stone m.1 m.2 p).2).check_win m.1 m.2 p

/-- Spec-side: the first legal move in enumeration order whose speculative
placement of `p`'s stone completes a win for `p` at that cell. -/
def firstWinningMove (b : Board) (p : Nat) : Option (Int × Int) :=
  b.get_valid_moves.find? (winProbe b p)

theorem easyScan_eq_find (p : Nat) :
    ∀ (moves : List (Int × Int)) (b : Board),
      (∀ m ∈ moves, b.is_valid_move m.1 m.2 = true) →
      (easyScan p moves b).1 = moves.find? (winProbe b p) := by
  intro moves
  induction moves with
  | nil => intro b _; rfl
  | cons m2 rest ih =>
    intro b hv
    obtain ⟨x, y⟩ := m2
    have hvm := hv (x, y) (List.mem_cons_self _ _)
    simp only [easyScan, place_clear b x y p hvm]
    by_cases hw : ((b.place_stone x y p).2).check_win x y p = true
    · rw [if_pos hw, List.find?_cons_of_pos rest
        (show winProbe b p (x, y) = true from hw)]
    · rw [if_neg hw, List.find?_cons_of_neg rest
        (show ¬winProbe b p (x, y) = true from hw)]
      exact ih b (fun m3 hm3 => hv m3 (List.mem_cons_of_mem _ hm3))

/-- C6: on the Easy tier, `get_best_move` returns the first legal move whose
speculative own-stone placement wins; failing that, the first legal move
whose speculative opponent-stone placement would win (a one-ply block);
failing both, the legal move selected by the random draw. -/
theorem C6_easy_policy (ai : AI) (b : Board) (rnd : Nat)
    (hdiff : ai.difficulty = "Easy") :
    (∀ m : Int × Int, firstWinningMove b ai.player = some m →
      (ai.get_best_move b rnd).1 = some m) ∧
    (firstWinningMove b ai.player = none →
      ∀ m : Int × Int, firstWinningMove b ai.opponent = some m →
        (ai.get_best_move b rnd).1 = some m) ∧
    (firstWinningMove b ai.player = none →
      firstWinningMove b ai.opponent = none →
      b.get_valid_moves ≠ [] →
      (ai.get_best_move b rnd).1 =
        some (b.get_valid_moves.getD (rnd % b.get_valid_moves.length) (0, 0)) ∧
      b.get_valid_moves.getD (rnd % b.get_valid_moves.length) (0, 0) ∈
        b.get_valid_moves) := by
  have hv : ∀ m ∈ b.get_valid_moves, b.is_valid_move m.1 m.2 = true :=
    fun m hm => (mem_get_valid_moves_iff b m).mp hm
  have hEasy : (ai.difficulty == "Easy") = true := by rw [hdiff]; rfl
  refine ⟨fun m hm => ?_, fun h1 m hm => ?_, fun h1 h2 hne => ?_⟩
  · have hne : b.get_valid_moves ≠ [] :=
      List.ne_nil_of_mem (List.mem_of_find?_eq_some hm)
    simp only [AI.get_best_move]
    rw [if_neg (by simpa [List.isEmpty_iff] using hne), if_pos hEasy]
    have hs1 : (easyScan ai.player b.get_valid_moves b).1 = some m := by
      rw [easyScan_eq_find ai.player b.get_valid_moves b hv]
      exact hm
    rw [hs1]
  · have hne : b.get_valid_moves ≠ [] :=
      List.ne_nil_of_mem (List.mem_of_find?_eq_some hm)
    simp only [AI.get_best_move]
    rw [if_neg (by simpa [List.isEmpty_iff] using hne), if_pos hEasy]
    have hs1 : (easyScan ai.player b.get_valid_moves b).1 = none := by
      rw [easyScan_eq_find ai.player b.get_valid_moves b hv]
      exact h1
    rw [hs1, easyScan_restore ai.player b.get_valid_moves b hv]
    have hs2 : (easyScan ai.opponent b.get_valid_moves b).1 = some m := by
      rw [easyScan_eq_find ai.opponent b.get_valid_moves b hv]
      exact hm
    rw [hs2]
  · simp only [AI.get_best_move]
    rw [if_neg (by simpa [List.isEmpty_iff] using hne), if_pos hEasy]
    have hs1 : (easyScan ai.player b.get_valid_moves b).1 = none := by
      rw [easyScan_eq_find ai.player b.get_valid_moves b hv]
      exact h1
    rw [hs1, easyScan_restore ai.player b.get_valid_moves b hv]
    have hs2 : (easyScan ai.opponent b.get_valid_moves b).1 = none := by
      rw [easyScan_eq_find ai.opponent b.get_valid_moves b hv]
      exact h2
    rw [hs2]
    exact ⟨rfl, getD_mod_mem hne rnd⟩

/-- Board where the opponent (player 1) has four in a row, used to witness
the Easy tier's one-ply block. -/
def blockBoard : Board :=
  placeList 1 (Board.init 5) [(0, 0), (1, 0), (2, 0), (3, 0)]

/-- Witness for C6: on `blockBoard` the Easy tier has no immediate win, the
opponent threatens at `(4, 0)`, and the engine blocks there. -/
theorem C6_easy_policy_witness :
    ({ difficulty := "Easy" } : AI).difficulty = "Easy" ∧
      firstWinningMove blockBoard ({ difficulty := "Easy" } : AI).player =
        none ∧
      firstWinningMove blockBoard ({ difficulty := "Easy" } : AI).opponent =
        some (4, 0) ∧
      (({ difficulty := "Easy" } : AI).get_best_move blockBoard 0).1 =
        some (4, 0) :=
  ⟨rfl, by decide, by decide,
    (C6_easy_policy { difficulty := "Easy" } blockBoard 0 rfl).2.1 (by decide)
      (4, 0) (by decide)⟩

/-! ### C8: deterministic first-argmax selection on the minimax tiers -/

/-- The selection loop of `_minimax_move` stripped to scores: keep the first
candidate whose score strictly beats the running best. -/
def selectFold (score : (Int × Int) → Score) :
    List (Int × Int) → Score → Option (Int × Int) → Option (Int × Int)
  | [], _, best => best
  | m :: rest, bestScore, best =>
    if bestScore < score m then selectFold score rest (score m) (some m)
    else selectFold score rest bestScore best

theorem le_foldl_max (l : List Score) (a : Score) : a ≤ l.foldl max a := by
  induction l generalizing a with
  | nil => exact le_refl a
  | cons b l ih => exact le_trans (le_max_left a b) (ih (max a b))

theorem selectFold_spec (score : (Int × Int) → Score) :
    ∀ (moves : List (Int × Int)) (s : Score) (best : Option (Int × Int)),
      selectFold score moves s best =
        if s < (moves.map score).foldl max s then
          moves.find? (fun m =>
            decide (score m = (moves.map score).foldl max s))
        else best := by
  intro moves
  induction moves with
  | nil =>
    intro s best
    simp [selectFold]
  | cons m rest ih =>
    intro s best
    simp only [selectFold, List.map_cons, List.foldl_cons]
    by_cases hlt : s < score m
    · rw [if_pos hlt, ih]
      simp only [max_eq_right hlt.le]
      have hM : score m ≤ (rest.map score).foldl max (score m) :=
        le_foldl_max _ _
      rw [if_pos (lt_of_lt_of_le hlt hM)]
      by_cases heq : score m = (rest.map score).foldl max (score m)
      · rw [if_neg (by rw [← heq]; exact lt_irrefl _),
          List.find?_cons_of_pos rest
            (by simp only [decide_eq_true_eq]; exact heq)]
      · rw [if_pos (lt_of_le_of_ne hM heq),
          List.find?_cons_of_neg rest
            (by simp only [decide_eq_true_eq]; exact heq)]
    · rw [if_neg hlt, ih]
      simp only [max_eq_left (not_lt.mp hlt)]
      by_cases hlt2 : s < (rest.map score).foldl max s
      · rw [if_pos hlt2, if_pos hlt2, List.find?_cons_of_neg rest (by
          simp only [decide_eq_true_eq]
          intro hc
          rw [← hc] at hlt2
          exact hlt hlt2)]
      · rw [if_neg hlt2, if_neg hlt2]

/-- The root score `_minimax_move` assigns to a candidate move: play it and
run `minimax` at the remaining depth with a full window. -/
def AI.rootScore (ai : AI) (b : Board) (d : Nat) (m : Int × Int) : Score :=
  (ai.minimax d (b.place_stone m.1 m.2 ai.player).2 false ⊥ Score.posInf).1

theorem mmLoop_eq_selectFold (ai : AI) (d : Nat) :
    ∀ (moves : List (Int × Int)) (b : Board) (s : Score)
      (best : Option (Int × Int)),
      (∀ m ∈ moves, b.is_valid_move m.1 m.2 = true) →
      (ai.mmLoop d moves b s best).1 =
        selectFold (ai.rootScore b d) moves s best := by
  intro moves
  induction moves with
  | nil => intro b s best _; rfl
  | cons m2 rest ih =>
    intro b s best hv
    obtain ⟨x, y⟩ := m2
    have hvm := hv (x, y) (List.mem_cons_self _ _)
    simp only [AI.mmLoop, selectFold, AI.rootScore, minimax_restore,
      place_clear b x y ai.player hvm]
    by_cases hc : s <
        (ai.minimax d (b.place_stone x y ai.player).2 false ⊥ Score.posInf).1
    · rw [if_pos hc, if_pos hc]
      exact ih b _ _ (fun m3 hm3 => hv m3 (List.mem_cons_of_mem _ hm3))
    · rw [if_neg hc, if_neg hc]
      exact ih b _ _ (fun m3 hm3 => hv m3 (List.mem_cons_of_mem _ hm3))

/-- The search depth `get_best_move` selects for each non-Easy tier. -/
def tierDepth (difficulty : String) : Nat :=
  if difficulty == "Normal" then 1 else if difficulty == "Hard" then 3 else 2

theorem get_best_move_non_easy (ai : AI) (b : Board) (rnd : Nat)
    (hdiff : ai.difficulty ≠ "Easy") :
    ai.get_best_move b rnd = ai.minimax_move b (tierDepth ai.difficulty) := by
  have hne : ¬(ai.difficulty == "Easy") = true := by simpa using hdiff
  have hval : ai.get_best_move b rnd =
      (if b.get_valid_moves.isEmpty then (none, b)
        else ai.minimax_move b (tierDepth ai.difficulty)) := by
    simp only [AI.get_best_move]
    by_cases hE : b.get_valid_moves.isEmpty = true
    · rw [if_pos hE, if_pos hE]
    · rw [if_neg hE, if_neg hE, if_neg hne]
      simp only [tierDepth]
      by_cases hN : (ai.difficulty == "Normal") = true
      · rw [if_pos hN, if_pos hN]
      · rw [if_neg hN, if_neg hN]
        by_cases hH : (ai.difficulty == "Hard") = true
        · rw [if_pos hH, if_pos hH]
        · rw [if_neg hH, if_neg hH]
  rw [hval]
  by_cases hE : b.get_valid_moves.isEmpty = true
  · rw [if_pos hE]
    simp only [AI.minimax_move]
    rw [if_pos hE]
  · rw [if_neg hE]

theorem mem_valid_row {b : Board} {y : Nat} {m : Int × Int}
    (h : m ∈ (List.range b.size).filterMap fun (x : Nat) =>
      if b.is_valid_move (x : Int) (y : Int) then
        some ((x : Int), (y : Int)) else none) :
    m.2 = (y : Int) := by
  rw [List.mem_filterMap] at h
  obtain ⟨x, -, hm⟩ := h
  split at hm
  · cases hm
    rfl
  · cases hm

theorem opt_valid_eq {b : Board} {x y : Nat} {m : Int × Int}
    (h : m ∈ (if b.is_valid_move (x : Int) (y : Int) then
      some ((x : Int), (y : Int)) else none)) :
    m = ((x : Int), (y : Int)) := by
  split at h
  · exact (Option.mem_some_iff.mp h).symm
  · exact absurd h (Option.not_mem_none m)

/-- `get_valid_moves` really is row-major: later entries have a strictly
larger `y`, or the same `y` and a strictly larger `x`. -/
theorem get_valid_moves_row_major (b : Board) :
    b.get_valid_moves.Pairwise (fun m1 m2 =>
      m1.2 < m2.2 ∨ (m1.2 = m2.2 ∧ m1.1 < m2.1)) := by
  unfold Board.get_valid_moves
  rw [List.pairwise_flatMap]
  constructor
  · intro y _
    rw [List.pairwise_filterMap]
    apply (List.pairwise_lt_range b.size).imp
    intro x1 x2 hx m1 hm1 m2 hm2
    rw [opt_valid_eq hm1, opt_valid_eq hm2]
    refine Or.inr ⟨rfl, ?_⟩
    show (x1 : Int) < (x2 : Int)
    exact_mod_cast hx
  · apply (List.pairwise_lt_range b.size).imp
    intro y1 y2 hy m1 hm1 m2 hm2
    rw [mem_valid_row hm1, mem_valid_row hm2]
    refine Or.inl ?_
    show (y1 : Int) < (y2 : Int)
    exact_mod_cast hy

/-- C8: on the Normal, Hard, and fallback tiers the selection ignores the
random stream — two runs on equal boards coincide — and the chosen move is
the first move, in `get_valid_moves`' row-major enumeration order, whose
root minimax score equals the maximum over all candidates; that enumeration
order is provably row-major (increasing `y`, then `x`). -/
theorem C8_deterministic_first_max (ai : AI) (b : Board) (rnd rnd2 : Nat)
    (hb : b.WF) (hdiff : ai.difficulty ≠ "Easy") :
    (ai.get_best_move b rnd = ai.get_best_move b rnd2) ∧
    (b.get_valid_moves ≠ [] →
      (ai.get_best_move b rnd).1 =
        b.get_valid_moves.find? (fun m => decide
          (ai.rootScore b (tierDepth ai.difficulty - 1) m =
            (b.get_valid_moves.map
              (ai.rootScore b (tierDepth ai.difficulty - 1))).foldl max ⊥))) ∧
    b.get_valid_moves.Pairwise (fun m1 m2 =>
      m1.2 < m2.2 ∨ (m1.2 = m2.2 ∧ m1.1 < m2.1)) := by
  refine ⟨?_, fun hne => ?_, get_valid_moves_row_major b⟩
  · rw [get_best_move_non_easy ai b rnd hdiff,
      get_best_move_non_easy ai b rnd2 hdiff]
  · rw [get_best_move_non_easy ai b rnd hdiff]
    simp only [AI.minimax_move]
    rw [if_neg (by simpa [List.isEmpty_iff] using hne)]
    rw [mmLoop_eq_selectFold ai (tierDepth ai.difficulty - 1)
      b.get_valid_moves b ⊥ none
      (fun m hm => (mem_get_valid_moves_iff b m).mp hm)]
    rw [selectFold_spec]
    have hMne : ⊥ <
        (b.get_valid_moves.map
          (ai.rootScore b (tierDepth ai.difficulty - 1))).foldl max ⊥ := by
      match hmoves : b.get_valid_moves, hne with
      | m1 :: rest, _ =>
        have hfin := (minimax_fin ai (tierDepth ai.difficulty - 1)
          (b.place_stone m1.1 m1.2 ai.player).2 false ⊥ Score.posInf
          (b.WF_place m1.1 m1.2 ai.player hb)).1
        have h1 : ⊥ < ai.rootScore b (tierDepth ai.difficulty - 1) m1 :=
          bot_lt_iff_ne_bot.mpr hfin
        calc (⊥ : Score) < ai.rootScore b (tierDepth ai.difficulty - 1) m1 :=
              h1
          _ ≤ _ := by
              rw [List.map_cons, List.foldl_cons, max_eq_right bot_le]
              exact le_foldl_max _ _
    rw [if_pos hMne]

/-- Witness for C8 on a concrete well-formed board with a Normal-tier AI. -/
theorem C8_deterministic_first_max_witness :
    (Board.init 2).WF ∧ ({ } : AI).difficulty ≠ "Easy" ∧
      (Board.init 2).get_valid_moves ≠ [] ∧
      ((({ } : AI).get_best_move (Board.init 2) 0).1 =
        (Board.init 2).get_valid_moves.find? (fun m => decide
          (({ } : AI).rootScore (Board.init 2)
              (tierDepth ({ } : AI).difficulty - 1) m =
            ((Board.init 2).get_valid_moves.map
              (({ } : AI).rootScore (Board.init 2)
                (tierDepth ({ } : AI).difficulty - 1))).foldl max ⊥))) :=
  ⟨by decide, by decide, by decide,
    (C8_deterministic_first_max { } (Board.init 2) 0 1 (by decide)
      (by decide)).2.1 (by decide)⟩

/-! ### C4: alpha-beta pruning never changes the selected move -/

/-- Spec-side: exhaustive (unpruned) minimax over the same game tree — same
base cases and move enumeration as `AI.minimax`, but every child is scored
and combined by plain max/min with no alpha-beta window. -/
def AI.plain_minimax (ai : AI) : Nat → Board → Bool → Score
  | 0, b, _ => Score.ofInt (ai.evaluate_board b)
  | d + 1, b, maxing =>
    if ai.is_game_over b then Score.ofInt (ai.evaluate_board b)
    else if maxing then
      ((b.get_valid_moves).map fun m =>
        ai.plain_minimax d (b.place_stone m.1 m.2 ai.player).2 false).foldl
          max ⊥
    else
      ((b.get_valid_moves).map fun m =>
        ai.plain_minimax d (b.place_stone m.1 m.2 ai.opponent).2 true).foldl
          min Score.posInf

/-- Spec-side: the unpruned move selection — same enumeration and the same
strict-improvement first-max tie-break, scored by `plain_minimax`. -/
def AI.plain_move (ai : AI) (b : Board) (depth : Nat) : Option (Int × Int) :=
  if b.get_valid_moves.isEmpty then none
  else
    selectFold (fun m =>
      ai.plain_minimax (depth - 1) (b.place_stone m.1 m.2 ai.player).2 false)
      b.get_valid_moves ⊥ none

theorem min_max_congr (beta a a2 c : Score) (h : min beta a = min beta a2) :
    min beta (max a c) = min beta (max a2 c) := by
  rcases le_total a beta with h1 | h1 <;> rcases le_total a2 beta with h2 | h2
  · rw [min_eq_right h1, min_eq_right h2] at h
    rw [h]
  · rw [min_eq_right h1, min_eq_left h2] at h
    rw [min_eq_left (h ▸ le_max_left a c),
      min_eq_left (le_trans h2 (le_max_left a2 c))]
  · rw [min_eq_left h1, min_eq_right h2] at h
    rw [min_eq_left (le_trans h1 (le_max_left a c)),
      min_eq_left (h ▸ le_max_left a2 c)]
  · rw [min_eq_left (le_trans h1 (le_max_left a c)),
      min_eq_left (le_trans h2 (le_max_left a2 c))]

theorem max_min_congr (alpha a a2 c : Score) (h : max alpha a = max alpha a2) :
    max alpha (min a c) = max alpha (min a2 c) := by
  rcases le_total alpha a with h1 | h1 <;> rcases le_total alpha a2 with h2 | h2
  · rw [max_eq_right h1, max_eq_right h2] at h
    rw [h]
  · rw [max_eq_right h1, max_eq_left h2] at h
    rw [max_eq_left (h ▸ min_le_left a c),
      max_eq_left (le_trans (min_le_left a2 c) h2)]
  · rw [max_eq_left h1, max_eq_right h2] at h
    rw [max_eq_left (le_trans (min_le_left a c) h1),
      max_eq_left (h ▸ min_le_left a2 c)]
  · rw [max_eq_left (le_trans (min_le_left a c) h1),
      max_eq_left (le_trans (min_le_left a2 c) h2)]

theorem clamp_comm {alpha beta : Score} (v : Score) (h : alpha < beta) :
    min beta (max alpha v) = max alpha (min beta v) := by
  rcases le_total v alpha with h1 | h1
  · rw [max_eq_left h1, min_eq_right h.le, min_eq_right (le_trans h1 h.le),
      max_eq_left h1]
  · rcases le_total v beta with h2 | h2
    · rw [max_eq_right h1, min_eq_right h2, max_eq_right h1]
    · rw [max_eq_right h1, min_eq_left h2, max_eq_right h.le]

theorem foldl_max_init (l : List Score) (a : Score) :
    l.foldl max a = max a (l.foldl max ⊥) := by
  induction l generalizing a with
  | nil => rw [List.foldl_nil, List.foldl_nil, sup_bot_eq]
  | cons b l ih =>
    rw [List.foldl_cons, List.foldl_cons, ih (max a b), ih (max ⊥ b),
      bot_sup_eq, max_assoc]

theorem foldl_min_init (l : List Score) (a : Score) :
    l.foldl min a = min a (l.foldl min Score.posInf) := by
  rw [posInf_eq_top]
  induction l generalizing a with
  | nil => rw [List.foldl_nil, List.foldl_nil, inf_top_eq]
  | cons b l ih =>
    rw [List.foldl_cons, List.foldl_cons, ih (min a b), ih (min ⊤ b),
      top_inf_eq, min_assoc]

theorem le_foldl_min (l : List Score) (a : Score) : l.foldl min a ≤ a := by
  induction l generalizing a with
  | nil => exact le_refl a
  | cons b l ih => exact le_trans (ih (min a b)) (min_le_left a b)

theorem selectFold_congr (f g : (Int × Int) → Score) :
    ∀ (moves : List (Int × Int)) (s : Score) (best : Option (Int × Int)),
      (∀ m ∈ moves, f m = g m) →
      selectFold f moves s best = selectFold g moves s best := by
  intro moves
  induction moves with
  | nil => intro s best _; rfl
  | cons m rest ih =>
    intro s best hfg
    have hm := hfg m (List.mem_cons_self _ _)
    simp only [selectFold, hm]
    split
    · exact ih _ _ (fun m2 hm2 => hfg m2 (List.mem_cons_of_mem _ hm2))
    · exact ih _ _ (fun m2 hm2 => hfg m2 (List.mem_cons_of_mem _ hm2))

/-- Fail-soft correctness of the maximizing loop, in clamped form: within the
window, the pruned loop value agrees with the exhaustive fold of the true
child values. -/
theorem searchMax_clamp (step : Board → Score → Score → Score × Board)
    (tvalue : Board → Score) (p : Nat)
    (hrestore : ∀ b2 a2 b3, (step b2 a2 b3).2 = b2)
    (hstep : ∀ b2 a2 b3, a2 < b3 →
      min b3 (max a2 (step b2 a2 b3).1) = min b3 (max a2 (tvalue b2))) :
    ∀ (moves : List (Int × Int)) (b : Board) (ms alpha0 alpha beta : Score),
      (∀ m ∈ moves, b.is_valid_move m.1 m.2 = true) →
      alpha = max alpha0 ms → alpha < beta →
      min beta (max alpha0 (searchMax step p moves b ms alpha beta).1) =
        min beta (max alpha0
          ((moves.map fun m => tvalue (b.place_stone m.1 m.2 p).2).foldl
            max ms)) := by
  intro moves
  induction moves with
  | nil => intro b ms a0 a bt _ _ _; rfl
  | cons m2 rest ih =>
    intro b ms a0 a bt hv ha hab
    obtain ⟨x, y⟩ := m2
    have hvm := hv (x, y) (List.mem_cons_self _ _)
    simp only [searchMax, hrestore, place_clear b x y p hvm,
      List.map_cons, List.foldl_cons]
    have hchild := hstep (b.place_stone x y p).2 a bt hab
    by_cases hbr : bt ≤ max a (step (b.place_stone x y p).2 a bt).1
    · rw [if_pos hbr]
      have hsbt : bt ≤ (step (b.place_stone x y p).2 a bt).1 := by
        rcases max_choice a (step (b.place_stone x y p).2 a bt).1 with h | h <;>
          rw [h] at hbr
        · exact absurd (lt_of_lt_of_le hab hbr) (lt_irrefl a)
        · exact hbr
      have ht1bt : bt ≤ tvalue (b.place_stone x y p).2 := by
        have h1 : min bt (max a (step (b.place_stone x y p).2 a bt).1) = bt :=
          min_eq_left (le_trans hsbt (le_max_right _ _))
        rw [h1] at hchild
        have h2 : bt ≤ max a (tvalue (b.place_stone x y p).2) :=
          min_eq_left_iff.mp hchild.symm
        rcases le_total (tvalue (b.place_stone x y p).2) a with h3 | h3
        · rw [max_eq_left h3] at h2
          exact absurd (lt_of_lt_of_le hab h2) (lt_irrefl a)
        · rw [max_eq_right h3] at h2
          exact h2
      rw [min_eq_left (le_trans (le_trans hsbt (le_max_right ms _))
          (le_max_right a0 _)),
        min_eq_left (le_trans (le_trans ht1bt (le_trans (le_max_right ms _)
          (le_foldl_max _ _))) (le_max_right a0 _))]
    · rw [if_neg hbr]
      have hab2 : max a (step (b.place_stone x y p).2 a bt).1 < bt :=
        not_le.mp hbr
      have ha2 : max a (step (b.place_stone x y p).2 a bt).1 =
          max a0 (max ms (step (b.place_stone x y p).2 a bt).1) := by
        rw [ha, max_assoc]
      rw [ih b _ a0 _ bt (fun m3 hm3 => hv m3 (List.mem_cons_of_mem _ hm3))
        ha2 hab2]
      rw [foldl_max_init _ (max ms (step (b.place_stone x y p).2 a bt).1),
        foldl_max_init _ (max ms (tvalue (b.place_stone x y p).2))]
      rw [← max_assoc a0 (max ms (step (b.place_stone x y p).2 a bt).1),
        ← ha2, ← max_assoc a0 (max ms (tvalue (b.place_stone x y p).2)),
        ← max_assoc a0 ms, ← ha]
      exact min_max_congr bt _ _ _ hchild

/-- Fail-soft correctness of the minimizing loop, dual to `searchMax_clamp`. -/
theorem searchMin_clamp (step : Board → Score → Score → Score × Board)
    (tvalue : Board → Score) (p : Nat)
    (hrestore : ∀ b2 a2 b3, (step b2 a2 b3).2 = b2)
    (hstep : ∀ b2 a2 b3, a2 < b3 →
      max a2 (min b3 (step b2 a2 b3).1) = max a2 (min b3 (tvalue b2))) :
    ∀ (moves : List (Int × Int)) (b : Board) (ms beta0 alpha beta : Score),
      (∀ m ∈ moves, b.is_valid_move m.1 m.2 = true) →
      beta = min beta0 ms → alpha < beta →
      max alpha (min beta0 (searchMin step p moves b ms alpha beta).1) =
        max alpha (min beta0
          ((moves.map fun m => tvalue (b.place_stone m.1 m.2 p).2).foldl
            min ms)) := by
  intro moves
  induction moves with
  | nil => intro b ms b0 a bt _ _ _; rfl
  | cons m2 rest ih =>
    intro b ms b0 a bt hv hb hab
    obtain ⟨x, y⟩ := m2
    have hvm := hv (x, y) (List.mem_cons_self _ _)
    simp only [searchMin, hrestore, place_clear b x y p hvm,
      List.map_cons, List.foldl_cons]
    have hchild := hstep (b.place_stone x y p).2 a bt hab
    by_cases hbr : min bt (step (b.place_stone x y p).2 a bt).1 ≤ a
    · rw [if_pos hbr]
      have hsa : (step (b.place_stone x y p).2 a bt).1 ≤ a := by
        rcases min_choice bt (step (b.place_stone x y p).2 a bt).1 with h | h <;>
          rw [h] at hbr
        · exact absurd (lt_of_le_of_lt hbr hab) (lt_irrefl bt)
        · exact hbr
      have ht1a : tvalue (b.place_stone x y p).2 ≤ a := by
        have h1 : max a (min bt (step (b.place_stone x y p).2 a bt).1) = a :=
          max_eq_left (le_trans (min_le_right _ _) hsa)
        rw [h1] at hchild
        have h2 : min bt (tvalue (b.place_stone x y p).2) ≤ a :=
          sup_eq_left.mp hchild.symm
        rcases le_total bt (tvalue (b.place_stone x y p).2) with h3 | h3
        · rw [min_eq_left h3] at h2
          exact absurd (lt_of_le_of_lt h2 hab) (lt_irrefl bt)
        · rw [min_eq_right h3] at h2
          exact h2
      rw [max_eq_left (le_trans (le_trans (min_le_right b0 _)
          (le_trans (min_le_right ms _) hsa)) (le_refl a)),
        max_eq_left (le_trans (min_le_right b0 _)
          (le_trans (le_trans (le_foldl_min _ _) (min_le_right ms _)) ht1a))]
    · rw [if_neg hbr]
      have hab2 : a < min bt (step (b.place_stone x y p).2 a bt).1 :=
        not_le.mp hbr
      have hb2 : min bt (step (b.place_stone x y p).2 a bt).1 =
          min b0 (min ms (step (b.place_stone x y p).2 a bt).1) := by
        rw [hb, min_assoc]
      rw [ih b _ b0 a _ (fun m3 hm3 => hv m3 (List.mem_cons_of_mem _ hm3))
        hb2 hab2]
      rw [foldl_min_init _ (min ms (step (b.place_stone x y p).2 a bt).1),
        foldl_min_init _ (min ms (tvalue (b.place_stone x y p).2))]
      rw [← min_assoc b0 (min ms (step (b.place_stone x y p).2 a bt).1),
        ← hb2, ← min_assoc b0 (min ms (tvalue (b.place_stone x y p).2)),
        ← min_assoc b0 ms, ← hb]
      exact max_min_congr a _ _ _ hchild

theorem bot_lt_posInf : (⊥ : Score) < Score.posInf :=
  bot_lt_iff_ne_bot.mpr (Ne.symm bot_ne_posInf)

/-- Within any open alpha-beta window, the pruned `minimax` value clamped to
the window agrees with the exhaustive `plain_minimax` value clamped to the
window. -/
theorem minimax_clamp (ai : AI) : ∀ (d : Nat) (b : Board) (maxing : Bool)
    (alpha beta : Score), alpha < beta →
    min beta (max alpha (ai.minimax d b maxing alpha beta).1) =
      min beta (max alpha (ai.plain_minimax d b maxing)) := by
  intro d
  induction d with
  | zero => intro b maxing a bt _; rfl
  | succ d2 ih =>
    intro b maxing a bt hab
    rw [AI.minimax, AI.plain_minimax]
    split
    · rfl
    · cases maxing with
      | true =>
        rw [if_pos rfl, if_pos rfl]
        exact searchMax_clamp _ (fun b2 => ai.plain_minimax d2 b2 false)
          ai.player (fun b2 a2 b3 => minimax_restore ai d2 b2 false a2 b3)
          (fun b2 a2 b3 h2 => ih b2 false a2 b3 h2)
          b.get_valid_moves b ⊥ a a bt
          (fun m hm => (mem_get_valid_moves_iff b m).mp hm)
          (sup_bot_eq a).symm hab
      | false =>
        rw [if_neg (by simp), if_neg (by simp)]
        rw [clamp_comm _ hab, clamp_comm _ hab]
        exact searchMin_clamp _ (fun b2 => ai.plain_minimax d2 b2 true)
          ai.opponent (fun b2 a2 b3 => minimax_restore ai d2 b2 true a2 b3)
          (fun b2 a2 b3 h2 => by
            rw [← clamp_comm _ h2, ← clamp_comm _ h2]
            exact ih b2 true a2 b3 h2)
          b.get_valid_moves b Score.posInf bt a bt
          (fun m hm => (mem_get_valid_moves_iff b m).mp hm)
          (by rw [posInf_eq_top, inf_top_eq]) hab

theorem minimax_full_window_eq_plain (ai : AI) (d : Nat) (b : Board)
    (maxing : Bool) :
    (ai.minimax d b maxing ⊥ Score.posInf).1 = ai.plain_minimax d b maxing := by
  have h := minimax_clamp ai d b maxing ⊥ Score.posInf bot_lt_posInf
  rw [posInf_eq_top, top_inf_eq, top_inf_eq, bot_sup_eq, bot_sup_eq] at h
  exact h

/-- C4: for every board and depth, the move chosen by the alpha-beta-pruned
selection (`_minimax_move`) equals the move chosen by exhaustive unpruned
minimax over the same game tree with the same first-max tie-break — pruning
never changes the selected move. -/
theorem C4_pruning_preserves_move (ai : AI) (b : Board) (depth : Nat) :
    (ai.minimax_move b depth).1 = ai.plain_move b depth := by
  simp only [AI.minimax_move, AI.plain_move]
  split
  · rfl
  · rw [mmLoop_eq_selectFold ai (depth - 1) b.get_valid_moves b ⊥ none
      (fun m hm => (mem_get_valid_moves_iff b m).mp hm)]
    apply selectFold_congr
    intro m _
    exact minimax_full_window_eq_plain ai (depth - 1)
      (b.place_stone m.1 m.2 ai.player).2 false
